import Mathlib

/-!
Shallow embedding of `src/Blue_Carbon_Credit.py`.

The file defines two independent components of the source program:

* the blockchain (`Block`, `Blockchain`, `compute_hash`, `proof_of_work`,
  `add_block`), and
* the token ledger (`BlueCarbonToken`, `issue`, `transfer`).

`hashlib.sha256` and `json.dumps` are external libraries, not code of this
repository; the digest of the five block fields
`(index, timestamp, data, previous_hash, nonce)` is therefore abstracted as a
function parameter `H : HashFn`.  Everything the repository itself computes is
embedded concretely.  Python `int` is embedded as `Int` (unbounded, signed);
Python dictionaries (with their first-occurrence update / append-if-absent
behaviour and insertion order) are embedded as association lists.  A Python
`KeyError` (which terminates the process) is embedded as `none` in an
`Option`-returning function.
-/

/-- The digest function: `hashlib.sha256(json.dumps({...}, sort_keys=True)
.encode()).hexdigest()` abstracted as a function of the five fields that
appear in the serialized dictionary, in the order
`(index, timestamp, data, previous_hash, nonce)`. -/
def HashFn : Type := Nat → String → String → String → Nat → String

/-- `class Block` (`src/Blue_Carbon_Credit.py:16`): the five content fields
plus the stored `hash` attribute. -/
structure Block where
  index : Nat
  timestamp : String
  data : String
  previous_hash : String
  nonce : Nat
  hash : String
deriving Repr, DecidableEq

/-- `Block.compute_hash` (line 26): the SHA-256 hex digest of the block's own
current field values; the stored `hash` attribute is not an input. -/
def compute_hash (H : HashFn) (b : Block) : String :=
  H b.index b.timestamp b.data b.previous_hash b.nonce

/-- `Block.__init__` (line 17): stores the five fields and computes
`self.hash = self.compute_hash()` at construction time. -/
def mkBlock (H : HashFn) (index : Nat) (timestamp data previous_hash : String)
    (nonce : Nat) : Block :=
  { index := index, timestamp := timestamp, data := data,
    previous_hash := previous_hash, nonce := nonce,
    hash := H index timestamp data previous_hash nonce }

/-- `Blockchain.difficulty = 2` (line 40). -/
def difficulty : Nat := 2

/-- `matchZeros k cs` checks that the first `k` characters of `cs` are `'0'`;
helper for `startsWithZeros`. -/
def matchZeros : Nat → List Char → Bool
  | 0, _ => true
  | _ + 1, [] => false
  | k + 1, c :: cs => c == '0' && matchZeros k cs

/-- `computed_hash.startswith('0' * Blockchain.difficulty)` (line 61):
the digest string begins with `k` leading `'0'` characters. -/
def startsWithZeros (s : String) (k : Nat) : Bool :=
  matchZeros k s.data

/-- One test of the mining loop's condition: the digest of `b` with its nonce
replaced by `n` starts with `difficulty` leading zeros. -/
def minedB (H : HashFn) (b : Block) (n : Nat) : Bool :=
  startsWithZeros (compute_hash H { b with nonce := n }) difficulty

/-- `class Blockchain` (line 39): the list of blocks, in insertion order. -/
structure Blockchain where
  chain : List Block
deriving Repr, DecidableEq

/-- `Blockchain.create_genesis_block` (line 47):
`Block(0, str(datetime.now()), "Genesis Block", "0")` with default nonce `0`.
The timestamp `str(datetime.now())` is an external input, taken as a
parameter. -/
def create_genesis_block (H : HashFn) (ts : String) : Block :=
  mkBlock H 0 ts "Genesis Block" "0" 0

/-- `Blockchain.__init__` (line 42): start from the empty list and append the
genesis block. -/
def Blockchain.init (H : HashFn) (ts : String) : Blockchain :=
  ⟨[create_genesis_block H ts]⟩

/-- A placeholder block, used only as the default of `List.getLastD`; every
reachable chain is nonempty, so it is never actually returned there. -/
def dummyBlock : Block :=
  { index := 0, timestamp := "", data := "", previous_hash := "", nonce := 0,
    hash := "" }

/-- `Blockchain.last_block` (line 53): `self.chain[-1]`.  Python raises
`IndexError` on an empty list; the chain is never empty, and the default
`dummyBlock` is unreachable in every theorem below. -/
def last_block (c : Blockchain) : Block :=
  c.chain.getLastD dummyBlock

/-- `Blockchain.proof_of_work` (line 57): reset `block.nonce = 0`, then keep
incrementing the nonce and recomputing the hash until the hash starts with
`difficulty` zeros.  The loop is an unbounded linear search; it is embedded
under the hypothesis that a solution exists, and `Nat.find` returns the least
solution, exactly the nonce at which the loop stops.  The result is the pair
(block as mutated by the loop, returned hash); the loop itself does not
update the stored `hash` attribute. -/
def proof_of_work (H : HashFn) (b : Block) (h : ∃ n, minedB H b n = true) :
    Block × String :=
  ({ b with nonce := Nat.find h },
   compute_hash H { b with nonce := Nat.find h })

/-- The block built at the top of `Blockchain.add_block` (line 68):
`Block(index=last.index+1, timestamp=str(datetime.now()), data=data,
previous_hash=last.hash)` with default nonce `0`; the timestamp is again a
parameter. -/
def next_block (H : HashFn) (c : Blockchain) (data ts : String) : Block :=
  mkBlock H ((last_block c).index + 1) ts data (last_block c).hash 0

/-- The block as it ends up in the chain: mutated by `proof_of_work` and with
`new_block.hash = self.proof_of_work(new_block)` assigned (line 74). -/
def mined_block (H : HashFn) (c : Blockchain) (data ts : String)
    (h : ∃ n, minedB H (next_block H c data ts) n = true) : Block :=
  { (proof_of_work H (next_block H c data ts) h).1 with
      hash := (proof_of_work H (next_block H c data ts) h).2 }

/-- `Blockchain.add_block` (line 67): build the next block, mine it, assign
the winning hash, append it to the chain and return it. -/
def add_block (H : HashFn) (c : Blockchain) (data ts : String)
    (h : ∃ n, minedB H (next_block H c data ts) n = true) :
    Blockchain × Block :=
  (⟨c.chain ++ [mined_block H c data ts h]⟩, mined_block H c data ts h)

/-- The chains produced by constructing a `Blockchain` and performing any
sequence of `add_block` calls (each with an arbitrary data payload and
timestamp, and with a mineable next block). -/
inductive ChainReach (H : HashFn) : Blockchain → Prop
  | init (ts : String) : ChainReach H (Blockchain.init H ts)
  | add (c : Blockchain) (data ts : String)
      (h : ∃ n, minedB H (next_block H c data ts) n = true)
      (hc : ChainReach H c) : ChainReach H (add_block H c data ts h).1

/-- The linkage relation between consecutive blocks. -/
def linkR (a b : Block) : Prop :=
  b.previous_hash = a.hash ∧ b.index = a.index + 1

/-- A Python dictionary with string keys and integer values, embedded as an
association list in insertion order (keys unique in every reachable state). -/
abbrev Balances : Type := List (String × Int)

/-- Dictionary lookup: `some v` when the key is present (first occurrence),
`none` otherwise.  `d[k]` raises `KeyError` exactly when this is `none`. -/
def dictFind (bs : Balances) (k : String) : Option Int :=
  match bs with
  | [] => none
  | (k', v) :: rest => if k' = k then some v else dictFind rest k

/-- `bs.get(k, 0)`: the stored value, or `0` when the key is absent. -/
def dictGet (bs : Balances) (k : String) : Int :=
  (dictFind bs k).getD 0

/-- `bs[k] = v`: replace the (first) binding of `k`, or append a new binding
when `k` is absent — Python dictionary assignment semantics. -/
def dictSet (bs : Balances) (k : String) (v : Int) : Balances :=
  match bs with
  | [] => [(k, v)]
  | (k', v') :: rest =>
      if k' = k then (k, v) :: rest else (k', v') :: dictSet rest k v

/-- `sum(bs.values())`. -/
def sumVals (bs : Balances) : Int :=
  (bs.map Prod.snd).sum

/-- `class BlueCarbonToken` (line 81). -/
structure BlueCarbonToken where
  name : String
  symbol : String
  balances : Balances
  total_supply : Int
deriving Repr, DecidableEq

/-- `BlueCarbonToken.__init__` (line 82): empty balances, zero supply. -/
def BlueCarbonToken.init (name symbol : String) : BlueCarbonToken :=
  ⟨name, symbol, [], 0⟩

/-- `BlueCarbonToken.issue` (line 89):
`balances[user] = balances.get(user, 0) + amount; total_supply += amount`. -/
def BlueCarbonToken.issue (t : BlueCarbonToken) (user : String) (amount : Int) :
    BlueCarbonToken :=
  { t with
    balances := dictSet t.balances user (dictGet t.balances user + amount),
    total_supply := t.total_supply + amount }

/-- `BlueCarbonToken.transfer` (line 94).  When the guard
`balances.get(sender, 0) >= amount` holds, the statement
`balances[sender] -= amount` first reads `balances[sender]`, which raises
`KeyError` (embedded as `none`) when `sender` has no entry; otherwise the
sender is debited, the receiver credited via
`balances[receiver] = balances.get(receiver, 0) + amount`, and `True` is
returned.  When the guard fails, nothing is mutated and `False` is
returned. -/
def BlueCarbonToken.transfer (t : BlueCarbonToken) (sender receiver : String)
    (amount : Int) : Option (BlueCarbonToken × Bool) :=
  if amount ≤ dictGet t.balances sender then
    match dictFind t.balances sender with
    | none => none
    | some v =>
        let b1 := dictSet t.balances sender (v - amount)
        let b2 := dictSet b1 receiver (dictGet b1 receiver + amount)
        some ({ t with balances := b2 }, true)
  else
    some (t, false)

/-- The token-ledger states reachable from a freshly constructed
`BlueCarbonToken` by a sequence of `issue` and (non-crashing) `transfer`
calls whose amounts satisfy `pI` and `pT` respectively. -/
inductive TokenReach (pI pT : Int → Prop) : BlueCarbonToken → Prop
  | init (name symbol : String) : TokenReach pI pT (BlueCarbonToken.init name symbol)
  | issue (t : BlueCarbonToken) (u : String) (a : Int) (ha : pI a)
      (ht : TokenReach pI pT t) : TokenReach pI pT (t.issue u a)
  | transfer (t t' : BlueCarbonToken) (s r : String) (a : Int) (ok : Bool)
      (ha : pT a) (ht : TokenReach pI pT t)
      (heq : t.transfer s r a = some (t', ok)) : TokenReach pI pT t'

/-- The digest used by the witnesses below: a constant function whose output
already has two leading zeros, so every block is mineable at nonce 0. -/
def H0 : HashFn := fun _ _ _ _ _ => "00"

/-- A concrete two-block chain over `H0`: genesis plus one `add_block`. -/
def chain2 : Blockchain :=
  (add_block H0 (Blockchain.init H0 "t0") "d1" "t1" ⟨0, by decide⟩).1

/-- A concrete token ledger used by the witnesses below: one holder,
`"NGO_1"`, with balance 80. -/
def tok80 : BlueCarbonToken :=
  ⟨"BlueCarbonToken", "BCT", [("NGO_1", 80)], 80⟩

theorem dictFind_set_self (bs : Balances) (k : String) (v : Int) :
    dictFind (dictSet bs k v) k = some v := by
  induction bs with
  | nil => simp [dictSet, dictFind]
  | cons p rest ih =>
      by_cases hk : p.1 = k
      · simp [dictSet, hk, dictFind]
      · simp [dictSet, hk, dictFind, ih]

theorem dictFind_set_ne (bs : Balances) (k u : String) (v : Int) (hu : u ≠ k) :
    dictFind (dictSet bs k v) u = dictFind bs u := by
  induction bs with
  | nil => simp [dictSet, dictFind, Ne.symm hu]
  | cons p rest ih =>
      by_cases hk : p.1 = k
      · subst hk
        simp [dictSet, dictFind, Ne.symm hu]
      · simp [dictSet, hk, dictFind, ih]

theorem dictGet_set_self (bs : Balances) (k : String) (v : Int) :
    dictGet (dictSet bs k v) k = v := by
  simp [dictGet, dictFind_set_self]

theorem dictGet_set_ne (bs : Balances) (k u : String) (v : Int) (hu : u ≠ k) :
    dictGet (dictSet bs k v) u = dictGet bs u := by
  simp [dictGet, dictFind_set_ne bs k u v hu]

theorem sumVals_set (bs : Balances) (k : String) (v : Int) :
    sumVals (dictSet bs k v) = sumVals bs + v - dictGet bs k := by
  induction bs with
  | nil => simp [dictSet, sumVals, dictGet, dictFind]
  | cons p rest ih =>
      by_cases hk : p.1 = k
      · simp [dictSet, hk, sumVals, dictGet, dictFind]
        ring
      · simp only [dictSet, hk, if_false, sumVals, List.map_cons, List.sum_cons,
          dictGet, dictFind] at ih ⊢
        omega

theorem mem_dictSet (bs : Balances) (k : String) (v : Int) (p : String × Int)
    (hp : p ∈ dictSet bs k v) : p = (k, v) ∨ p ∈ bs := by
  induction bs with
  | nil => simpa [dictSet] using hp
  | cons q rest ih =>
      by_cases hk : q.1 = k
      · simp only [dictSet, hk, if_true, List.mem_cons] at hp
        rcases hp with h | h
        · exact Or.inl h
        · exact Or.inr (List.mem_cons_of_mem q h)
      · simp only [dictSet, hk, if_false, List.mem_cons] at hp
        rcases hp with h | h
        · exact Or.inr (h ▸ List.mem_cons_self q rest)
        · rcases ih h with h' | h'
          · exact Or.inl h'
          · exact Or.inr (List.mem_cons_of_mem q h')

theorem dictSet_set_same (bs : Balances) (k : String) (v w : Int) :
    dictSet (dictSet bs k v) k w = dictSet bs k w := by
  induction bs with
  | nil => simp [dictSet]
  | cons p rest ih =>
      by_cases hk : p.1 = k
      · simp [dictSet, hk]
      · simp [dictSet, hk, ih]

theorem dictSet_find_eq (bs : Balances) (k : String) (v : Int)
    (h : dictFind bs k = some v) : dictSet bs k v = bs := by
  induction bs with
  | nil => simp [dictFind] at h
  | cons p rest ih =>
      by_cases hk : p.1 = k
      · simp only [dictFind, hk, if_true, Option.some.injEq] at h
        subst hk
        simp [dictSet, ← h]
      · simp only [dictFind, hk, if_false] at h
        simp [dictSet, hk, ih h]

theorem dictFind_mem (bs : Balances) (k : String) (v : Int)
    (h : dictFind bs k = some v) : (k, v) ∈ bs := by
  induction bs with
  | nil => simp [dictFind] at h
  | cons p rest ih =>
      by_cases hk : p.1 = k
      · simp only [dictFind, hk, if_true, Option.some.injEq] at h
        subst hk
        subst h
        exact List.mem_cons_self p rest
      · simp only [dictFind, hk, if_false] at h
        exact List.mem_cons_of_mem p (ih h)

theorem dictGet_nonneg (bs : Balances) (k : String)
    (h : ∀ p ∈ bs, 0 ≤ p.2) : 0 ≤ dictGet bs k := by
  unfold dictGet
  cases hf : dictFind bs k with
  | none => simp
  | some v => simpa using h (k, v) (dictFind_mem bs k v hf)

theorem transfer_success_eq (t : BlueCarbonToken) (s r : String) (a v : Int)
    (hf : dictFind t.balances s = some v) (hv : a ≤ v) :
    t.transfer s r a =
      some ({ t with
                balances := dictSet (dictSet t.balances s (v - a)) r
                  (dictGet (dictSet t.balances s (v - a)) r + a) },
            true) := by
  have hg : dictGet t.balances s = v := by simp [dictGet, hf]
  simp [BlueCarbonToken.transfer, hg, hv, hf]

theorem transfer_inv (t t' : BlueCarbonToken) (s r : String) (a : Int)
    (ok : Bool) (heq : t.transfer s r a = some (t', ok)) :
    t' = t ∨
    ∃ v, dictFind t.balances s = some v ∧ a ≤ v ∧
      t'.balances = dictSet (dictSet t.balances s (v - a)) r
        (dictGet (dictSet t.balances s (v - a)) r + a) ∧
      t'.total_supply = t.total_supply := by
  unfold BlueCarbonToken.transfer at heq
  by_cases hle : a ≤ dictGet t.balances s
  · rw [if_pos hle] at heq
    cases hf : dictFind t.balances s with
    | none => rw [hf] at heq; exact absurd heq (by simp)
    | some v =>
        rw [hf] at heq
        simp only [Option.some.injEq, Prod.mk.injEq] at heq
        right
        refine ⟨v, rfl, ?_, ?_, ?_⟩
        · have hg : dictGet t.balances s = v := by simp [dictGet, hf]
          rwa [hg] at hle
        · rw [← heq.1]
        · rw [← heq.1]
  · rw [if_neg hle] at heq
    simp only [Option.some.injEq, Prod.mk.injEq] at heq
    exact Or.inl heq.1.symm

theorem mined_block_previous_hash (H : HashFn) (c : Blockchain)
    (data ts : String) (h : ∃ n, minedB H (next_block H c data ts) n = true) :
    (mined_block H c data ts h).previous_hash = (last_block c).hash := rfl

theorem mined_block_index (H : HashFn) (c : Blockchain) (data ts : String)
    (h : ∃ n, minedB H (next_block H c data ts) n = true) :
    (mined_block H c data ts h).index = (last_block c).index + 1 := rfl

theorem mined_block_hash_eq (H : HashFn) (c : Blockchain) (data ts : String)
    (h : ∃ n, minedB H (next_block H c data ts) n = true) :
    (mined_block H c data ts h).hash =
      compute_hash H (mined_block H c data ts h) := rfl

theorem mined_block_mined (H : HashFn) (c : Blockchain) (data ts : String)
    (h : ∃ n, minedB H (next_block H c data ts) n = true) :
    startsWithZeros (mined_block H c data ts h).hash difficulty = true :=
  Nat.find_spec h

theorem last_block_eq_getLast (c : Blockchain) (hne : c.chain ≠ []) :
    last_block c = c.chain.getLast hne := by
  rw [last_block, List.getLastD_eq_getLast?, List.getLast?_eq_getLast c.chain hne,
    Option.getD_some]

theorem chain'_concat_of (R : Block → Block → Prop) (l : List Block) (x : Block)
    (h : List.Chain' R l) (hne : l ≠ []) (hR : R (l.getLast hne) x) :
    List.Chain' R (l ++ [x]) := by
  rw [List.chain'_append]
  refine ⟨h, List.chain'_singleton x, ?_⟩
  intro a ha b hb
  rw [List.getLast?_eq_getLast l hne] at ha
  simp only [Option.mem_def, Option.some.injEq, List.head?_cons] at ha hb
  rw [← ha, ← hb]
  exact hR

theorem tail_append_singleton (l : List Block) (x : Block) (h : l ≠ []) :
    (l ++ [x]).tail = l.tail ++ [x] := by
  cases l with
  | nil => exact absurd rfl h
  | cons a as => rfl

theorem chain_invariant (H : HashFn) (c : Blockchain) (hc : ChainReach H c) :
    c.chain ≠ [] ∧ List.Chain' linkR c.chain ∧
      ∀ b ∈ c.chain.tail, b.hash = compute_hash H b ∧
        startsWithZeros b.hash difficulty = true := by
  induction hc with
  | init ts =>
      refine ⟨by simp [Blockchain.init], ?_, ?_⟩
      · exact List.chain'_singleton _
      · intro b hb
        simp [Blockchain.init] at hb
  | add c data ts h hc ih =>
      obtain ⟨hne, hch, htail⟩ := ih
      refine ⟨by simp [add_block], ?_, ?_⟩
      · refine chain'_concat_of linkR c.chain (mined_block H c data ts h) hch hne ?_
        constructor
        · rw [mined_block_previous_hash, last_block_eq_getLast c hne]
        · rw [mined_block_index, last_block_eq_getLast c hne]
      · intro b hb
        rw [show (add_block H c data ts h).1.chain =
              c.chain ++ [mined_block H c data ts h] from rfl,
            tail_append_singleton c.chain _ hne] at hb
        rcases List.mem_append.mp hb with hmem | hmem
        · exact htail b hmem
        · rw [List.mem_singleton.mp hmem]
          exact ⟨mined_block_hash_eq H c data ts h, mined_block_mined H c data ts h⟩

/-- C1: for every chain produced by constructing a `Blockchain` and performing
any sequence of `add_block` calls, and every index `i > 0`,
`chain[i].previous_hash` equals `chain[i-1].hash` and `chain[i].index` equals
`chain[i-1].index + 1`. -/
theorem chain_linkage (H : HashFn) (c : Blockchain) (hc : ChainReach H c)
    (i : Nat) (hi : 0 < i) (hlen : i < c.chain.length) :
    (c.chain.get ⟨i, hlen⟩).previous_hash =
      (c.chain.get ⟨i - 1, by omega⟩).hash ∧
    (c.chain.get ⟨i, hlen⟩).index =
      (c.chain.get ⟨i - 1, by omega⟩).index + 1 := by
  obtain ⟨j, rfl⟩ : ∃ j, i = j + 1 := ⟨i - 1, by omega⟩
  have hch := (chain_invariant H c hc).2.1
  have h := (List.chain'_iff_get.mp hch) j (by omega)
  simp only [Nat.add_sub_cancel]
  exact ⟨h.1, h.2⟩

/-- C1 witness: the two-block chain `chain2` at index 1. -/
theorem chain_linkage_witness :
    (chain2.chain.get ⟨1, by decide⟩).previous_hash =
      (chain2.chain.get ⟨0, by decide⟩).hash ∧
    (chain2.chain.get ⟨1, by decide⟩).index =
      (chain2.chain.get ⟨0, by decide⟩).index + 1 :=
  chain_linkage H0 chain2
    (ChainReach.add (Blockchain.init H0 "t0") "d1" "t1" ⟨0, by decide⟩
      (ChainReach.init "t0"))
    1 (by decide) (by decide)

/-- C2: in every reachable chain, every block except the genesis block stores
a hash equal to the digest recomputed from its own five fields, and that hash
begins with `difficulty` (2) leading zero characters. -/
theorem nongenesis_hash_valid (H : HashFn) (c : Blockchain)
    (hc : ChainReach H c) (b : Block) (hb : b ∈ c.chain.tail) :
    b.hash = compute_hash H b ∧ startsWithZeros b.hash difficulty = true :=
  (chain_invariant H c hc).2.2 b hb

/-- C2 witness: the single non-genesis block of `chain2`. -/
theorem nongenesis_hash_valid_witness :
    (mined_block H0 (Blockchain.init H0 "t0") "d1" "t1" ⟨0, by decide⟩).hash =
      compute_hash H0
        (mined_block H0 (Blockchain.init H0 "t0") "d1" "t1" ⟨0, by decide⟩) ∧
    startsWithZeros
      (mined_block H0 (Blockchain.init H0 "t0") "d1" "t1" ⟨0, by decide⟩).hash
      difficulty = true :=
  nongenesis_hash_valid H0 chain2
    (ChainReach.add (Blockchain.init H0 "t0") "d1" "t1" ⟨0, by decide⟩
      (ChainReach.init "t0"))
    _ (List.mem_cons_self _ _)

/-- C7: constructing a `Blockchain` creates exactly one genesis block as
`chain[0]`, with index 0, previous hash the sentinel `"0"`, payload
`"Genesis Block"`, nonce 0, and a stored hash equal to `compute_hash` of
those fields, with no proof-of-work performed. -/
theorem genesis_block_spec (H : HashFn) (ts : String) :
    (Blockchain.init H ts).chain = [create_genesis_block H ts] ∧
    (create_genesis_block H ts).index = 0 ∧
    (create_genesis_block H ts).previous_hash = "0" ∧
    (create_genesis_block H ts).data = "Genesis Block" ∧
    (create_genesis_block H ts).nonce = 0 ∧
    (create_genesis_block H ts).hash =
      compute_hash H (create_genesis_block H ts) :=
  ⟨rfl, rfl, rfl, rfl, rfl, rfl⟩

/-- C8: whenever some nonce makes the block's digest start with `difficulty`
zeros, `proof_of_work` (embedded, under exactly that hypothesis, via
`Nat.find` — the total counterpart of the source's linear search from 0) ends
at the least such nonce, returns the digest of the block at that nonce, and
`add_block` appends the returned block at the end of the chain. -/
theorem proof_of_work_terminates :
    (∀ (H : HashFn) (b : Block) (h : ∃ n, minedB H b n = true),
        minedB H b (proof_of_work H b h).1.nonce = true ∧
        (∀ m, m < (proof_of_work H b h).1.nonce → minedB H b m = false) ∧
        (proof_of_work H b h).2 = compute_hash H (proof_of_work H b h).1) ∧
    (∀ (H : HashFn) (c : Blockchain) (data ts : String)
        (h : ∃ n, minedB H (next_block H c data ts) n = true),
        (add_block H c data ts h).1.chain =
          c.chain ++ [(add_block H c data ts h).2]) := by
  constructor
  · intro H b h
    refine ⟨Nat.find_spec h, ?_, rfl⟩
    intro m hm
    simpa using Nat.find_min h hm
  · intro H c data ts h
    rfl

/-- C8 witness: instantiated with the constant digest `H0`, under which every
block is mineable. -/
theorem proof_of_work_terminates_witness :
    (∃ n, minedB H0 dummyBlock n = true) ∧
    minedB H0 dummyBlock
      (proof_of_work H0 dummyBlock ⟨0, by decide⟩).1.nonce = true ∧
    (add_block H0 (Blockchain.init H0 "t0") "d1" "t1" ⟨0, by decide⟩).1.chain =
      (Blockchain.init H0 "t0").chain ++
        [(add_block H0 (Blockchain.init H0 "t0") "d1" "t1" ⟨0, by decide⟩).2] :=
  ⟨⟨0, by decide⟩,
   (proof_of_work_terminates.1 H0 dummyBlock ⟨0, by decide⟩).1,
   proof_of_work_terminates.2 H0 (Blockchain.init H0 "t0") "d1" "t1"
     ⟨0, by decide⟩⟩

/-- C9: the result of `proof_of_work` is independent of the nonce the block
holds at call time — the search always restarts at 0 — so two blocks equal in
index, timestamp, data and previous hash yield the same returned digest and
the same final nonce. -/
theorem pow_initial_nonce_irrelevant (H : HashFn) (b1 b2 : Block)
    (hidx : b1.index = b2.index) (htm : b1.timestamp = b2.timestamp)
    (hd : b1.data = b2.data) (hp : b1.previous_hash = b2.previous_hash)
    (h1 : ∃ n, minedB H b1 n = true) (h2 : ∃ n, minedB H b2 n = true) :
    (proof_of_work H b1 h1).2 = (proof_of_work H b2 h2).2 ∧
    (proof_of_work H b1 h1).1.nonce = (proof_of_work H b2 h2).1.nonce := by
  have hmb : ∀ n, minedB H b1 n = minedB H b2 n := by
    intro n
    simp [minedB, compute_hash, hidx, htm, hd, hp]
  have hfind : Nat.find h1 = Nat.find h2 := by
    apply le_antisymm
    · exact Nat.find_le (by rw [hmb]; exact Nat.find_spec h2)
    · exact Nat.find_le (by rw [← hmb]; exact Nat.find_spec h1)
  constructor
  · show compute_hash H { b1 with nonce := Nat.find h1 } =
      compute_hash H { b2 with nonce := Nat.find h2 }
    simp [compute_hash, hidx, htm, hd, hp, hfind]
  · show Nat.find h1 = Nat.find h2
    exact hfind

/-- C9 witness: two blocks differing only in their initial nonce (3 vs 7) and
stored hash, mined under the constant digest `H0`. -/
theorem pow_initial_nonce_irrelevant_witness :
    (proof_of_work H0 (Block.mk 5 "t" "d" "p" 3 "h1") ⟨0, by decide⟩).2 =
      (proof_of_work H0 (Block.mk 5 "t" "d" "p" 7 "h2") ⟨0, by decide⟩).2 ∧
    (proof_of_work H0 (Block.mk 5 "t" "d" "p" 3 "h1") ⟨0, by decide⟩).1.nonce =
      (proof_of_work H0 (Block.mk 5 "t" "d" "p" 7 "h2") ⟨0, by decide⟩).1.nonce :=
  pow_initial_nonce_irrelevant H0 _ _ rfl rfl rfl rfl ⟨0, by decide⟩
    ⟨0, by decide⟩

/-- C3: starting from a freshly constructed `BlueCarbonToken` (empty
balances, `total_supply` 0), after every sequence of `issue` and `transfer`
operations `total_supply` equals the sum of all stored balances. -/
theorem total_supply_eq_sum (t : BlueCarbonToken)
    (ht : TokenReach (fun _ => True) (fun _ => True) t) :
    t.total_supply = sumVals t.balances := by
  induction ht with
  | init name symbol => rfl
  | issue t u a ha ht ih =>
      show t.total_supply + a =
        sumVals (dictSet t.balances u (dictGet t.balances u + a))
      rw [sumVals_set, ih]
      ring
  | transfer t t' s r a ok ha ht heq ih =>
      rcases transfer_inv t t' s r a ok heq with h | ⟨v, hf, hav, hb, hs⟩
      · rw [h]; exact ih
      · have hg : dictGet t.balances s = v := by simp [dictGet, hf]
        rw [hs, hb, sumVals_set, sumVals_set, hg, ih]
        ring

/-- C3 witness: a ledger reached by one issuance of 30 and one transfer
of 10. -/
theorem total_supply_eq_sum_witness :
    (BlueCarbonToken.mk "BlueCarbonToken" "BCT"
        [("NGO_1", 20), ("Community_1", 10)] 30).total_supply =
      sumVals (BlueCarbonToken.mk "BlueCarbonToken" "BCT"
        [("NGO_1", 20), ("Community_1", 10)] 30).balances :=
  total_supply_eq_sum _
    (TokenReach.transfer ((BlueCarbonToken.init "BlueCarbonToken" "BCT").issue
        "NGO_1" 30) _
      "NGO_1" "Community_1" 10 true trivial
      (TokenReach.issue _ "NGO_1" 30 trivial
        (TokenReach.init "BlueCarbonToken" "BCT"))
      (by decide))

/-- C4: when the sender's balance (0 when the sender has no entry) is
strictly less than the amount, `transfer` returns `False` and the entire
state — balances and `total_supply` — is unchanged. -/
theorem transfer_insufficient_funds (t : BlueCarbonToken) (s r : String)
    (a : Int) (h : dictGet t.balances s < a) :
    t.transfer s r a = some (t, false) := by
  simp [BlueCarbonToken.transfer, not_le.mpr h]

/-- C4 witness: the spec scenario — transferring 100 from a balance of 80
fails and changes nothing. -/
theorem transfer_insufficient_funds_witness :
    dictGet tok80.balances "NGO_1" < 100 ∧
    tok80.transfer "NGO_1" "Community_1" 100 = some (tok80, false) :=
  ⟨by decide, transfer_insufficient_funds tok80 "NGO_1" "Community_1" 100
    (by decide)⟩

/-- C5 counterexample: with sender `"NGO_1"` absent (so its balance 0 is at
least the amount 0) and a distinct receiver, the guard passes but the
statement `balances[sender] -= amount` reads a missing key and raises
`KeyError` (embedded `none`) instead of returning success. -/
theorem transfer_absent_sender_crashes :
    0 ≤ dictGet (BlueCarbonToken.init "BlueCarbonToken" "BCT").balances
        "NGO_1" ∧
    ("NGO_1" : String) ≠ "Community_1" ∧
    (BlueCarbonToken.init "BlueCarbonToken" "BCT").transfer "NGO_1"
        "Community_1" 0 = none :=
  ⟨by decide, by decide, by decide⟩

/-- C5 amended: for distinct sender and receiver, if the sender has an entry
in the balances map with value at least the amount (an entry is guaranteed
whenever the amount is positive and the balance covers it), `transfer`
returns success, debits the sender by the amount, credits the receiver by the
amount (creating its entry from 0 if absent), leaves every other balance and
`total_supply` unchanged; and the spec scenario transfers 50 from
`{NGO_1: 80, Community_1: 30}` to yield `{NGO_1: 30, Community_1: 80}`. -/
theorem transfer_success_spec :
    (∀ (t : BlueCarbonToken) (s r : String) (a v : Int), s ≠ r →
      dictFind t.balances s = some v → a ≤ v →
      ∃ t', t.transfer s r a = some (t', true) ∧
        dictGet t'.balances s = dictGet t.balances s - a ∧
        dictGet t'.balances r = dictGet t.balances r + a ∧
        (∀ u, u ≠ s → u ≠ r → dictGet t'.balances u = dictGet t.balances u) ∧
        t'.total_supply = t.total_supply) ∧
    (BlueCarbonToken.mk "BlueCarbonToken" "BCT"
        [("NGO_1", 80), ("Community_1", 30)] 110).transfer "NGO_1"
        "Community_1" 50 =
      some (BlueCarbonToken.mk "BlueCarbonToken" "BCT"
        [("NGO_1", 30), ("Community_1", 80)] 110, true) := by
  constructor
  · intro t s r a v hsr hf hv
    refine ⟨_, transfer_success_eq t s r a v hf hv, ?_, ?_, ?_, rfl⟩
    · rw [dictGet_set_ne _ _ _ _ hsr, dictGet_set_self]
      have hg : dictGet t.balances s = v := by simp [dictGet, hf]
      rw [hg]
    · rw [dictGet_set_self, dictGet_set_ne _ _ _ _ (Ne.symm hsr)]
    · intro u hus hur
      rw [dictGet_set_ne _ _ _ _ hur, dictGet_set_ne _ _ _ _ hus]
  · decide

/-- C5 witness: the general part instantiated at a sender holding 80,
transferring 50 to an absent receiver. -/
theorem transfer_success_spec_witness :
    ∃ t', tok80.transfer "NGO_1" "Community_1" 50 = some (t', true) ∧
      dictGet t'.balances "NGO_1" = dictGet tok80.balances "NGO_1" - 50 ∧
      dictGet t'.balances "Community_1" =
        dictGet tok80.balances "Community_1" + 50 ∧
      (∀ u, u ≠ "NGO_1" → u ≠ "Community_1" →
        dictGet t'.balances u = dictGet tok80.balances u) ∧
      t'.total_supply = tok80.total_supply :=
  transfer_success_spec.1 tok80 "NGO_1" "Community_1" 50 80 (by decide)
    (by decide) (by decide)

/-- C6 counterexample: issuance amounts non-negative but transfer amounts
arbitrary — issue `"NGO_1"` 0, then transfer −5 from `"NGO_1"` to
`"Community_1"`: the transfer succeeds and leaves `"Community_1"` at −5. -/
theorem negative_balance_reachable :
    ∃ t, TokenReach (fun a => 0 ≤ a) (fun _ => True) t ∧
      ∃ p ∈ t.balances, p.2 < 0 := by
  refine ⟨BlueCarbonToken.mk "BlueCarbonToken" "BCT"
      [("NGO_1", 5), ("Community_1", -5)] 0, ?_,
    ("Community_1", -5), by decide, by decide⟩
  exact TokenReach.transfer _ _ "NGO_1" "Community_1" (-5) true trivial
    (TokenReach.issue _ "NGO_1" 0 (by decide)
      (TokenReach.init "BlueCarbonToken" "BCT"))
    (by decide)

/-- C6 amended: starting from a fresh ledger, after every sequence of `issue`
operations with non-negative amounts and `transfer` operations with
non-negative amounts, every stored balance is non-negative. -/
theorem balances_nonneg (t : BlueCarbonToken)
    (ht : TokenReach (fun a => 0 ≤ a) (fun a => 0 ≤ a) t) :
    ∀ p ∈ t.balances, 0 ≤ p.2 := by
  induction ht with
  | init name symbol => intro p hp; simp [BlueCarbonToken.init] at hp
  | issue t u a ha ht ih =>
      intro p hp
      rcases mem_dictSet _ _ _ p hp with h | h
      · rw [h]
        exact add_nonneg (dictGet_nonneg _ _ ih) ha
      · exact ih p h
  | transfer t t' s r a ok ha ht heq ih =>
      rcases transfer_inv t t' s r a ok heq with h | ⟨v, hf, hav, hb, hs⟩
      · rw [h]; exact ih
      · have hb1 : ∀ q ∈ dictSet t.balances s (v - a), 0 ≤ q.2 := by
          intro q hq
          rcases mem_dictSet _ _ _ q hq with h' | h'
          · rw [h']
            exact sub_nonneg.mpr hav
          · exact ih q h'
        intro p hp
        rw [hb] at hp
        rcases mem_dictSet _ _ _ p hp with h' | h'
        · rw [h']
          exact add_nonneg (dictGet_nonneg _ _ hb1) ha
        · exact hb1 p h'

/-- C6 witness: in the state reached by issuing 80 to `"NGO_1"`, the stored
entry of `"NGO_1"` is non-negative. -/
theorem balances_nonneg_witness :
    0 ≤ (("NGO_1", (80 : Int)) : String × Int).2 :=
  balances_nonneg tok80
    (by
      have heq : (BlueCarbonToken.init "BlueCarbonToken" "BCT").issue
          "NGO_1" 80 = tok80 := by decide
      rw [← heq]
      exact TokenReach.issue _ "NGO_1" 80 (by decide)
        (TokenReach.init "BlueCarbonToken" "BCT"))
    ("NGO_1", 80) (by decide)

/-- C10 counterexample: a self-transfer of amount 0 by a user with no entry
meets the claim's guard (balance 0 is at least 0) yet raises `KeyError`
(embedded `none`) instead of returning `True`. -/
theorem self_transfer_absent_crashes :
    0 ≤ dictGet (BlueCarbonToken.init "BlueCarbonToken" "BCT").balances
        "NCCR_Admin" ∧
    (BlueCarbonToken.init "BlueCarbonToken" "BCT").transfer "NCCR_Admin"
        "NCCR_Admin" 0 = none :=
  ⟨by decide, by decide⟩

/-- C10 amended: a self-transfer by a user who has an entry with balance at
least the amount returns `True` and the very same state — balances and
`total_supply` unchanged. -/
theorem self_transfer_noop (t : BlueCarbonToken) (u : String) (a v : Int)
    (hf : dictFind t.balances u = some v) (hv : a ≤ v) :
    t.transfer u u a = some (t, true) := by
  have h1 : dictGet (dictSet t.balances u (v - a)) u + a = v := by
    rw [dictGet_set_self]; ring
  rw [transfer_success_eq t u u a v hf hv, h1, dictSet_set_same,
    dictSet_find_eq t.balances u v hf]

/-- C10 witness: `"NGO_1"` self-transfers 50 of its 80. -/
theorem self_transfer_noop_witness :
    tok80.transfer "NGO_1" "NGO_1" 50 = some (tok80, true) :=
  self_transfer_noop tok80 "NGO_1" 50 80 (by decide) (by decide)
